import Mathlib

/-!
Verification development for the QuoteBot repository.

Shallow embedding of the memory subsystem (src/memory/vector_db.py,
src/memory/quote_db.py, src/memory/short_term.py) and of the quote-selection
logic of the pipeline (src/agents/cinematic_pipeline.py).

Modelling conventions:
* Python floats are modelled as rationals (ℚ); the arithmetic of the scoring
  formulas is exact in the source, up to float rounding, and every constant
  involved (0.5, 0.40, 0.70, 0.30, 86400.0, 1.0) is treated as the exact
  rational it denotes.
* Embedding vectors are lists of rationals.  The sentence-transformer encoder
  is external to the repository, so it enters the model as a parameter
  encode : String → Vec (deterministic, as the real encoder is).
* faiss.IndexFlatL2.search is modelled exactly: it returns the k nearest
  stored vectors by squared L2 distance, distances ascending, ties broken by
  insertion order.  faiss.IndexFlatIP.search likewise returns the k largest
  inner products, descending.
* File persistence is modelled by a second association list (the "disk"):
  writing index+meta files for a domain is recorded as updating that entry.
-/

abbrev Vec := List ℚ

/-- Squared L2 distance between two vectors (what faiss IndexFlatL2 reports). -/
def sqDist (u v : Vec) : ℚ :=
  ((u.zip v).map (fun p => (p.1 - p.2) ^ 2)).sum

/-- Inner product of two vectors (what faiss IndexFlatIP reports). -/
def dotProd (u v : Vec) : ℚ :=
  ((u.zip v).map (fun p => p.1 * p.2)).sum

/-- Model of faiss.IndexFlatL2.search: pair every stored vector with its
position, sort by squared distance to the query (ascending, stable, so ties
keep insertion order), return the first k (distance, index) pairs. -/
def l2Search (vecs : List Vec) (q : Vec) (k : Nat) : List (ℚ × Int) :=
  ((vecs.enum.map (fun p => (sqDist q p.2, (p.1 : Int)))).mergeSort
    (fun a b => decide (a.1 ≤ b.1))).take k

/-- Model of faiss.IndexFlatIP.search: pair every stored vector with its
position, sort by inner product with the query (descending, stable), return
the first k (score, index) pairs. -/
def ipSearch (vecs : List Vec) (q : Vec) (k : Nat) : List (ℚ × Int) :=
  ((vecs.enum.map (fun p => (dotProd q p.2, (p.1 : Int)))).mergeSort
    (fun a b => decide (b.1 ≤ a.1))).take k

/-- One metadata record of a vector_db domain.  Dynamic records (written by
add_memory) carry a timestamp; static records (loaded from base dictionaries)
do not, which the source detects with "timestamp" not in memory_obj. -/
structure MemRecord where
  text : String
  timestamp : Option ℚ
  importance : ℚ
  mtype : String
deriving DecidableEq, Repr, Inhabited

/-- One domain of the 3-layer store: the faiss index (its stored vectors, in
insertion order) and the parallel metadata list db["data"]. -/
structure DomainDB where
  index : List Vec
  data : List MemRecord
deriving DecidableEq, Repr, Inhabited

/-- Association-list lookup, the model of dict membership/access. -/
def alookup {β : Type} (l : List (String × β)) (k : String) : Option β :=
  match l with
  | [] => none
  | (k2, v) :: rest => if k2 = k then some v else alookup rest k

/-- Association-list update/insert, the model of dict assignment. -/
def aupdate {β : Type} (l : List (String × β)) (k : String) (v : β) :
    List (String × β) :=
  match l with
  | [] => [(k, v)]
  | (k2, v2) :: rest =>
    if k2 = k then (k2, v) :: rest else (k2, v2) :: aupdate rest k v

/-- State of a VectorDBManager: self.databases plus the persisted files
(index_dir/{domain}.index and {domain}_meta.json, modelled together). -/
structure VectorDBState where
  databases : List (String × DomainDB)
  disk : List (String × DomainDB)
deriving DecidableEq, Repr, Inhabited

/-- VectorDBManager._init_empty_domain: if both backing files exist, load the
cached index and metadata; otherwise install an empty index with empty data
and write both files out. -/
def init_empty_domain (st : VectorDBState) (domainName : String) :
    VectorDBState :=
  match alookup st.disk domainName with
  | some db => { st with databases := aupdate st.databases domainName db }
  | none =>
    { databases := aupdate st.databases domainName ⟨[], []⟩
      disk := aupdate st.disk domainName ⟨[], []⟩ }

/-- VectorDBManager._save_domain: dump the domain's faiss index and metadata
array to disk. -/
def save_domain (st : VectorDBState) (domainName : String) : VectorDBState :=
  { st with
    disk := aupdate st.disk domainName
      ((alookup st.databases domainName).getD ⟨[], []⟩) }

/-- VectorDBManager.add_memory.  encode is the shared sentence encoder, now is
time.time() at the call.  Mirrors the source: ensure the domain exists, embed
the text, run a 1-nearest-neighbour dedup check; on a hit below distance 1.0
overwrite the matched record and rebuild the whole index from the updated
metadata, else append the new record and its embedding; save in both paths. -/
def add_memory (encode : String → Vec) (now : ℚ) (st : VectorDBState)
    (domainName text : String) (importance : ℚ) (memType : String) :
    VectorDBState :=
  let st1 := if (alookup st.databases domainName).isSome then st
             else init_empty_domain st domainName
  let db := (alookup st1.databases domainName).getD ⟨[], []⟩
  let embedding := encode text
  let dedupHit : Option (ℚ × Int) :=
    if db.index.length > 0 then
      match l2Search db.index embedding 1 with
      | (d, i) :: _ => if i ≠ -1 ∧ d < 1 then some (d, i) else none
      | [] => none
    else none
  match dedupHit with
  | some (_, i) =>
    let newData := db.data.set i.toNat ⟨text, some now, importance, memType⟩
    let newIndex := newData.map (fun m => encode m.text)
    let st2 := { st1 with
      databases := aupdate st1.databases domainName ⟨newIndex, newData⟩ }
    save_domain st2 domainName
  | none =>
    let st2 := { st1 with
      databases := aupdate st1.databases domainName
        ⟨db.index ++ [embedding],
         db.data ++ [⟨text, some now, importance, memType⟩]⟩ }
    save_domain st2 domainName

/-- base_similarity = 1.0 / (1.0 + distance), the inversion of the faiss L2
distance used by search_with_decay. -/
def baseSimilarity (d : ℚ) : ℚ := 1 / (1 + d)

/-- The decay branch of search_with_decay for a dynamic record:
final_score = base_similarity + importance * 0.5 + recency_weight with
recency_weight = base_similarity * (1 / (1 + age_in_days)) and
age_in_days = (now - timestamp) / 86400. -/
def decayScore (s importance ageDays : ℚ) : ℚ :=
  s + importance * (1 / 2) + s * (1 / (1 + ageDays))

/-- The per-hit scoring loop body of search_with_decay: skip faiss padding
(-1), invert the distance, drop hits whose base similarity is under 0.40,
score static records by bare similarity and dynamic records by decayScore. -/
def scoreHit (now : ℚ) (db : DomainDB) (hit : ℚ × Int) :
    Option (ℚ × MemRecord) :=
  if hit.2 = -1 then none
  else
    let m := db.data.getD hit.2.toNat default
    let s := baseSimilarity hit.1
    if s < 40 / 100 then none
    else
      match m.timestamp with
      | none => some (s, m)
      | some ts =>
        let ageDays := (now - ts) / 86400
        some (decayScore s m.importance ageDays, m)

/-- VectorDBManager.search_with_decay: absent domain or empty index yields [],
otherwise over-fetch min(10, ntotal) nearest hits, score them with scoreHit,
sort by final score descending (Python stable sort with reverse=True) and
return the metadata of the first top_k. -/
def search_with_decay (encode : String → Vec) (now : ℚ) (st : VectorDBState)
    (domainName query : String) (topK : Nat) : List MemRecord :=
  match alookup st.databases domainName with
  | none => []
  | some db =>
    if db.index.length = 0 then []
    else
      let fetchK := min 10 db.index.length
      let queryEmb := encode query
      let hits := l2Search db.index queryEmb fetchK
      let scored := hits.filterMap (scoreHit now db)
      let sorted := scored.mergeSort (fun a b => decide (b.1 ≤ a.1))
      (sorted.take topK).map (fun p => p.2)

/-- Python float(f-string with three decimals): decimal rounding of a value to
3 places, ties to even, used by search_quote on every stored signal. -/
def round3 (q : ℚ) : ℚ :=
  let n : ℚ := q * 1000
  let f : ℤ := ⌊n⌋
  let frac : ℚ := n - (f : ℚ)
  let r : ℤ :=
    if frac < 1 / 2 then f
    else if 1 / 2 < frac then f + 1
    else if f % 2 = 0 then f else f + 1
  (r : ℚ) / 1000

/-- One record of the quote corpus.  dict.get defaults of the source are
modelled by the sentinel values "" (absent usecase) and the stored emotion
string (q.get with default "general" — an absent key is modelled by storing
"general"). -/
structure QuoteRec where
  text : String
  usecase : String
  emotion : String
  qtype : String
  character : String
  source : String
deriving DecidableEq, Repr, Inhabited

/-- The document actually embedded for a quote: its text merged with its
situational usecase, or a synthesized situation phrase when the usecase is
empty. -/
def compound_doc (q : QuoteRec) : String :=
  let baseUsecase :=
    if q.usecase = "" then
      "Situation: User needs a quote about " ++ q.emotion ++ "."
    else q.usecase
  "Quote: " ++ q.text ++ ". " ++ baseUsecase

/-- QuoteDBManager._build_emotion_cache: every distinct emotion label of the
corpus is embedded once (encodeUnit models encode followed by the zero-guarded
normalisation) and cached; labels outside the corpus have no cached vector. -/
def build_emotion_cache (encodeUnit : String → Vec) (quotes : List QuoteRec) :
    String → Option Vec :=
  fun label =>
    if label ∈ quotes.map (fun q => q.emotion) then some (encodeUnit label)
    else none

/-- State of a QuoteDBManager: the loaded corpus, the faiss IP index vectors
(none models self.index = None), and the emotion vector cache. -/
structure QuoteDB where
  quotes : List QuoteRec
  indexVecs : Option (List Vec)
  emotionVecs : String → Option Vec

/-- QuoteDBManager._load_or_build: a missing corpus json raises
FileNotFoundError (modelled as Except.error); otherwise the quotes are loaded,
the index is read from its file when present or built by embedding every
compound document, and the emotion cache is built. -/
def load_or_build (encodeUnit : String → Vec)
    (corpusFile : Option (List QuoteRec)) (indexFile : Option (List Vec)) :
    Except String QuoteDB :=
  match corpusFile with
  | none => Except.error "Missing quote corpus file"
  | some quotes =>
    let vecs :=
      match indexFile with
      | some cached => cached
      | none => quotes.map (fun q => encodeUnit (compound_doc q))
    Except.ok ⟨quotes, some vecs, build_emotion_cache encodeUnit quotes⟩

/-- QuoteDBManager._emotion_sim: dot product of the query unit vector with the
cached unit vector of an emotion label, 0 when the label has no cached
vector. -/
def emotion_sim (emotionVecs : String → Option Vec) (queryUnit : Vec)
    (label : String) : ℚ :=
  match emotionVecs label with
  | none => 0
  | some v => dotProd queryUnit v

/-- One result dict of search_quote: position, rounded per-signal breakdown,
rounded composite and the quote metadata. -/
structure QuoteResult where
  idx : Int
  semanticSim : ℚ
  emoSim : ℚ
  typeWeight : ℚ
  composite : ℚ
  metadata : QuoteRec
deriving DecidableEq, Repr, Inhabited

/-- Signal weight W_SEMANTIC = 0.70. -/
def W_SEMANTIC : ℚ := 70 / 100

/-- Signal weight W_EMOTION = 0.30. -/
def W_EMOTION : ℚ := 30 / 100

/-- QuoteDBManager.search_quote.  encodeUnit is the encoder followed by
faiss.normalize_L2 (both external), so its output is the normalized query
vector.  Mirrors the source: None index yields [], over-fetch
min(top_k*4, ntotal) hits by inner product, skip padding and used positions,
clip both signals at 0, store every signal rounded to 3 decimals, sort by the
stored composite descending (stable) and keep the first top_k. -/
def search_quote (encodeUnit : String → Vec) (db : QuoteDB) (query : String)
    (topK : Nat) (usedIndices : List Int) : List QuoteResult :=
  match db.indexVecs with
  | none => []
  | some vecs =>
    let rawVec := encodeUnit query
    let queryUnit := rawVec
    let fetchK := min (topK * 4) vecs.length
    let hits := ipSearch vecs rawVec fetchK
    let results := hits.filterMap (fun hit =>
      if hit.2 = -1 ∨ hit.2 ∈ usedIndices then none
      else
        let quoteData := db.quotes.getD hit.2.toNat default
        let semanticSim := max 0 hit.1
        let emoSim := max 0 (emotion_sim db.emotionVecs queryUnit
          quoteData.emotion)
        let composite := W_SEMANTIC * semanticSim + W_EMOTION * emoSim
        some ⟨hit.2, round3 semanticSim, round3 emoSim, 1,
          round3 composite, quoteData⟩)
    let sorted := results.mergeSort (fun a b => decide (b.composite ≤ a.composite))
    sorted.take topK

/-- One chat message, as produced by ConversationBuffer. -/
structure Msg where
  role : String
  content : String
deriving DecidableEq, Repr, Inhabited

/-- collections.deque(maxlen) append: add on the right, dropping from the left
whatever exceeds the bound. -/
def dequePush (maxLen : Nat) (buf : List Msg) (m : Msg) : List Msg :=
  let b := buf ++ [m]
  if maxLen < b.length then b.drop (b.length - maxLen) else b

/-- ConversationBuffer.add_interaction: two deque appends, the user message
then the assistant message, on a deque bounded by max_turns. -/
def add_interaction (maxTurns : Nat) (buf : List Msg)
    (userText assistantText : String) : List Msg :=
  dequePush maxTurns (dequePush maxTurns buf ⟨"user", userText⟩)
    ⟨"assistant", assistantText⟩

/-- ConversationBuffer.get_history: the buffer content as a list. -/
def get_history (buf : List Msg) : List Msg := buf

/-- Helper for pyWords: walk the characters, cutting a token at every
whitespace run. -/
def splitWsAux : List Char → List Char → List String
  | [], acc => if acc = [] then [] else [String.mk acc.reverse]
  | c :: cs, acc =>
    if c.isWhitespace then
      if acc = [] then splitWsAux cs []
      else String.mk acc.reverse :: splitWsAux cs []
    else splitWsAux cs (c :: acc)

/-- Python str.split() with no argument: split on whitespace runs, producing
no empty tokens. -/
def pyWords (s : String) : List String := splitWsAux s.data []

/-- Python str.lower(), modelled on the character sequence. -/
def pyLower (s : String) : String := String.mk (s.data.map Char.toLower)

/-- The anti-repetition ring update of _node_retrieve_quote on an accepted
quote: append the position, then pop the oldest when the ring exceeds 5. -/
def acceptQuote (usedIndices : List Int) (idx : Int) : List Int :=
  let u := usedIndices ++ [idx]
  if 5 < u.length then u.drop 1 else u

/-- The quote-selection logic of CinematicPipeline._node_retrieve_quote:
lowercase the query and skip the search entirely when it has fewer than 4
whitespace-delimited words; otherwise search with top_k = 3 passing the ring
as used indices, reject an empty result or a best composite below 0.25, and
on acceptance record the position into the ring.  Returns the selected quote
(none when rejected) and the updated ring. -/
def node_retrieve_quote (encodeUnit : String → Vec) (db : QuoteDB)
    (usedIndices : List Int) (userQuery : String) :
    Option QuoteResult × List Int :=
  let words := pyWords (pyLower userQuery)
  if words.length < 4 then (none, usedIndices)
  else
    match search_quote encodeUnit db userQuery 3 usedIndices with
    | [] => (none, usedIndices)
    | best :: _ =>
      if best.composite < 25 / 100 then (none, usedIndices)
      else (some best, acceptQuote usedIndices best.idx)

/-- A second definition following the spec's words for claim C1: the final
score of a candidate with base similarity s.  Static (timestamp-absent)
records score s; dynamic records score s + importance * 0.5 + recency_weight
with recency_weight = s * (1 / (1 + age_in_days)) and age_in_days =
(now - timestamp) / 86400. -/
def specFinalScore (now s : ℚ) (m : MemRecord) : ℚ :=
  match m.timestamp with
  | none => s
  | some ts => s + m.importance * (1 / 2) + s * (1 / (1 + (now - ts) / 86400))

/-- Spec-worded scoring pipeline for claim C1: each over-fetched candidate is
paired with its base similarity 1/(1+d), every candidate with similarity
below 0.40 is discarded, and the survivors are scored by specFinalScore. -/
def specScoredCandidates (encode : String → Vec) (now : ℚ) (db : DomainDB)
    (query : String) : List (ℚ × MemRecord) :=
  let hits := l2Search db.index (encode query) (min 10 db.index.length)
  let withSim := hits.map
    (fun h => (baseSimilarity h.1, db.data.getD h.2.toNat default))
  let survivors := withSim.filter (fun p => decide (40 / 100 ≤ p.1))
  survivors.map (fun p => (specFinalScore now p.1 p.2, p.2))

/-- Spec-worded search for claim C1: an absent or empty domain yields the
empty list; otherwise sort the scored survivors descending by final score and
return only the record contents of the top_k highest-scoring ones. -/
def spec_search_with_decay (encode : String → Vec) (now : ℚ)
    (st : VectorDBState) (domainName query : String) (topK : Nat) :
    List MemRecord :=
  match alookup st.databases domainName with
  | none => []
  | some db =>
    if db.index.length = 0 then []
    else
      (((specScoredCandidates encode now db query).mergeSort
        (fun a b => decide (b.1 ≤ a.1))).take topK).map (fun p => p.2)

/-- The structural invariant of a domain: the faiss index holds exactly the
embeddings of the metadata texts, in order (so counts agree and position i of
each corresponds to position i of the other). -/
def domainWF (encode : String → Vec) (db : DomainDB) : Prop :=
  db.index = db.data.map (fun m => encode m.text)

/-- The structural invariant over a whole VectorDBManager state: every
in-memory domain and every persisted domain is well formed. -/
def stateWF (encode : String → Vec) (st : VectorDBState) : Prop :=
  (∀ d db, alookup st.databases d = some db → domainWF encode db) ∧
  (∀ d db, alookup st.disk d = some db → domainWF encode db)

/-- A run of accepted quote selections of _node_retrieve_quote, starting from
a given anti-repetition ring: each step is a search_quote call passing the
current ring whose best candidate clears the 0.25 acceptance gate, and the
accepted position is recorded into the ring. -/
inductive AcceptedRun (encodeUnit : String → Vec) (db : QuoteDB) :
    List Int → List Int → Prop where
  | nil : ∀ used, AcceptedRun encodeUnit db used []
  | cons : ∀ used q qs query best rest,
      search_quote encodeUnit db query 3 used = best :: rest →
      ¬ best.composite < 25 / 100 →
      q = best.idx →
      AcceptedRun encodeUnit db (acceptQuote used q) qs →
      AcceptedRun encodeUnit db used (q :: qs)

/-- A one-quote corpus record used to instantiate theorems on concrete
inputs. -/
def sampleQuote : QuoteRec := ⟨"t", "u", "general", "quote", "c", "s"⟩

/-- A one-quote database whose single stored vector is [v] and whose emotion
cache is empty. -/
def sampleQuoteDB (v : ℚ) : QuoteDB :=
  ⟨[sampleQuote], some [[v]], fun _ => none⟩

/-- A concrete deterministic stand-in for the sentence encoder, used to
instantiate theorems on concrete inputs. -/
def encFix : String → Vec :=
  fun t => if t = "a" then [0] else if t = "x" then [1 / 2] else [2]

/-- A concrete one-record domain whose stored vector is the encFix embedding
of its record text. -/
def dbC2 : DomainDB := ⟨[[0]], [⟨"a", some 0, 1 / 2, "general"⟩]⟩

/-- A concrete manager state holding dbC2 under domain d, in memory and on
disk. -/
def stC2 : VectorDBState := ⟨[("d", dbC2)], [("d", dbC2)]⟩

theorem alookup_aupdate_self {β : Type} (l : List (String × β)) (k : String)
    (v : β) : alookup (aupdate l k v) k = some v := by
  induction l with
  | nil => simp [aupdate, alookup]
  | cons hd tl ih =>
    obtain ⟨k2, v2⟩ := hd
    by_cases h : k2 = k
    · simp [aupdate, alookup, h]
    · simp [aupdate, alookup, h, ih]

theorem alookup_aupdate_cases {β : Type} {l : List (String × β)}
    {k d : String} {v db : β} (h : alookup (aupdate l k v) d = some db) :
    (d = k ∧ db = v) ∨ alookup l d = some db := by
  induction l with
  | nil =>
    simp [aupdate, alookup] at h
    rcases h with ⟨h1, h2⟩
    exact Or.inl ⟨h1.symm, h2.symm⟩
  | cons hd tl ih =>
    obtain ⟨k2, v2⟩ := hd
    by_cases hk : k2 = k
    · subst hk
      by_cases hd2 : k2 = d
      · subst hd2
        simp [aupdate, alookup] at h
        exact Or.inl ⟨rfl, h.symm⟩
      · simp [aupdate, alookup, hd2] at h ⊢
        exact Or.inr h
    · by_cases hd2 : k2 = d
      · subst hd2
        simp [aupdate, alookup, hk] at h ⊢
        exact h
      · simp [aupdate, alookup, hk, hd2] at h ⊢
        exact ih h

theorem mem_l2Search {vecs : List Vec} {q : Vec} {k : Nat} {p : ℚ × Int}
    (hp : p ∈ l2Search vecs q k) :
    ∃ i : Nat, p.2 = (i : Int) ∧ i < vecs.length := by
  unfold l2Search at hp
  have h1 := List.mem_of_mem_take hp
  have h2 := (List.mergeSort_perm
    (vecs.enum.map (fun p => (sqDist q p.2, (p.1 : Int))))
    (fun a b => decide (a.1 ≤ b.1))).mem_iff.mp h1
  obtain ⟨a, ha, heq⟩ := List.mem_map.mp h2
  have hb := List.mem_enum ha
  exact ⟨a.1, by rw [← heq], hb.1⟩

theorem mem_ipSearch {vecs : List Vec} {q : Vec} {k : Nat} {p : ℚ × Int}
    (hp : p ∈ ipSearch vecs q k) :
    ∃ i : Nat, p.2 = (i : Int) ∧ i < vecs.length := by
  unfold ipSearch at hp
  have h1 := List.mem_of_mem_take hp
  have h2 := (List.mergeSort_perm
    (vecs.enum.map (fun p => (dotProd q p.2, (p.1 : Int))))
    (fun a b => decide (b.1 ≤ a.1))).mem_iff.mp h1
  obtain ⟨a, ha, heq⟩ := List.mem_map.mp h2
  have hb := List.mem_enum ha
  exact ⟨a.1, by rw [← heq], hb.1⟩

theorem pairwise_mergeSort_ge {α : Type} (f : α → ℚ) (l : List α) :
    List.Pairwise (fun a b => f b ≤ f a)
      (l.mergeSort (fun a b => decide (f b ≤ f a))) := by
  have htrans : ∀ a b c : α, decide (f b ≤ f a) = true →
      decide (f c ≤ f b) = true → decide (f c ≤ f a) = true := by
    intro a b c h1 h2
    rw [decide_eq_true_iff] at h1 h2 ⊢
    exact le_trans h2 h1
  have htotal : ∀ a b : α,
      (decide (f b ≤ f a) || decide (f a ≤ f b)) = true := by
    intro a b
    rcases le_total (f b) (f a) with h | h
    · simp [h]
    · simp [h]
  have h := List.sorted_mergeSort htrans htotal l
  exact h.imp (fun hab => of_decide_eq_true hab)

theorem mem_search_quote {encodeUnit : String → Vec} {db : QuoteDB}
    {query : String} {topK : Nat} {usedIndices : List Int} {r : QuoteResult}
    (hr : r ∈ search_quote encodeUnit db query topK usedIndices) :
    ∃ vecs, db.indexVecs = some vecs ∧
    ∃ hit ∈ ipSearch vecs (encodeUnit query) (min (topK * 4) vecs.length),
      r.idx = hit.2 ∧ r.idx ∉ usedIndices ∧
      r.metadata = db.quotes.getD hit.2.toNat default ∧
      r.composite = round3 (W_SEMANTIC * max 0 hit.1 +
        W_EMOTION * max 0 (emotion_sim db.emotionVecs (encodeUnit query)
          r.metadata.emotion)) := by
  unfold search_quote at hr
  cases hvecs : db.indexVecs with
  | none => rw [hvecs] at hr; simp at hr
  | some vecs =>
    rw [hvecs] at hr
    simp only at hr
    have h1 := List.mem_of_mem_take hr
    have h2 := (List.mergeSort_perm _ _).mem_iff.mp h1
    obtain ⟨hit, hhit, heq⟩ := List.mem_filterMap.mp h2
    refine ⟨vecs, rfl, hit, hhit, ?_⟩
    by_cases hc : hit.2 = -1 ∨ hit.2 ∈ usedIndices
    · simp [hc] at heq
    · simp only [hc, if_false] at heq
      push_neg at hc
      injection heq with heq2
      subst heq2
      exact ⟨rfl, hc.2, rfl, rfl⟩

/-- C7: for two dynamic records scored in the same search_with_decay call with
equal base similarity s (at or above the 0.40 relevance floor) and equal
importance, the record with the smaller non-negative age_in_days receives a
final score greater than or equal to the older one: decayScore is
non-increasing in age. -/
theorem decay_score_monotone_in_age (s imp a1 a2 : ℚ) (hs : 40 / 100 ≤ s)
    (h0 : 0 ≤ a1) (h12 : a1 ≤ a2) :
    decayScore s imp a2 ≤ decayScore s imp a1 := by
  unfold decayScore
  have hp1 : (0 : ℚ) < 1 + a1 := by linarith
  have hinv : 1 / (1 + a2) ≤ 1 / (1 + a1) :=
    one_div_le_one_div_of_le hp1 (by linarith)
  have hs0 : (0 : ℚ) ≤ s := by linarith
  nlinarith [mul_le_mul_of_nonneg_left hinv hs0]

/-- Witness for C7: applied at similarity 1/2, importance 1, ages 0 and 3. -/
theorem decay_score_monotone_in_age_witness :
    decayScore (1 / 2) 1 3 ≤ decayScore (1 / 2) 1 0 :=
  decay_score_monotone_in_age (1 / 2) 1 0 3 (by norm_num) (by norm_num)
    (by norm_num)

/-- C9: evaluation of the ConversationBuffer at the failing input.  With the
default max_turns = 5, three add_interaction calls leave a history of only 5
messages: the user message of the first exchange has been evicted while its
assistant message remains, because the deque bounds individual messages, not
exchanges.  The claimed window of the most recent 5 exchanges would retain
all 6 messages of 3 exchanges. -/
theorem conversation_buffer_truncates_messages :
    get_history (add_interaction 5 (add_interaction 5 (add_interaction 5 []
        "u1" "a1") "u2" "a2") "u3" "a3") =
      [⟨"assistant", "a1"⟩, ⟨"user", "u2"⟩, ⟨"assistant", "a2"⟩,
       ⟨"user", "u3"⟩, ⟨"assistant", "a3"⟩] ∧
    (get_history (add_interaction 5 (add_interaction 5 (add_interaction 5 []
        "u1" "a1") "u2" "a2") "u3" "a3")).length ≠ 6 := by
  constructor
  · rfl
  · intro h
    simp [get_history, add_interaction, dequePush] at h

/-- C8: loading a memory domain whose backing files are absent initializes an
empty store (empty index, zero records) without failing, and writes the empty
state out; constructing the quote manager with an absent corpus file instead
raises (an error value) and produces no database. -/
theorem missing_file_semantics (st : VectorDBState) (domainName : String)
    (encodeUnit : String → Vec) (indexFile : Option (List Vec))
    (h : alookup st.disk domainName = none) :
    (alookup (init_empty_domain st domainName).databases domainName =
        some ⟨[], []⟩ ∧
      alookup (init_empty_domain st domainName).disk domainName =
        some ⟨[], []⟩) ∧
    load_or_build encodeUnit none indexFile =
      Except.error "Missing quote corpus file" := by
  constructor
  · unfold init_empty_domain
    rw [h]
    exact ⟨alookup_aupdate_self _ _ _, alookup_aupdate_self _ _ _⟩
  · rfl

/-- Witness for C8: applied to an entirely empty manager state and the
preferences domain. -/
theorem missing_file_semantics_witness :
    (alookup (init_empty_domain ⟨[], []⟩ "preferences").databases
        "preferences" = some ⟨[], []⟩ ∧
      alookup (init_empty_domain ⟨[], []⟩ "preferences").disk
        "preferences" = some ⟨[], []⟩) ∧
    load_or_build encFix none none =
      Except.error "Missing quote corpus file" :=
  missing_file_semantics ⟨[], []⟩ "preferences" encFix none rfl

/-- C5 counterexample: search_quote itself applies no query-length gate: on
the one-word query "hi" against a non-empty corpus it returns a non-empty
result list. -/
theorem search_quote_short_query_nonempty :
    (pyWords "hi").length < 4 ∧
    search_quote (fun _ => [1]) (sampleQuoteDB 1) "hi" 5 [] ≠ [] := by
  constructor
  · decide
  · have h : search_quote (fun _ => [1]) (sampleQuoteDB 1) "hi" 5 [] =
        [⟨0, 1, 0, 1, 7 / 10, sampleQuote⟩] := by
      norm_num [search_quote, sampleQuoteDB, ipSearch, dotProd, emotion_sim,
        round3, List.filterMap_cons, W_SEMANTIC, W_EMOTION]
    rw [h]
    simp

/-- C5 (amended): the fewer-than-4-words gate lives in the pipeline's
retrieve_quote node, not in search_quote: when the lowercased query has fewer
than 4 whitespace-delimited words the node skips the search, selects no quote
and leaves the ring unchanged; search_quote itself returns the empty list on
an empty corpus (no index object, or an index with no stored vectors). -/
theorem quote_gate_in_pipeline (encodeUnit : String → Vec) (db : QuoteDB)
    (usedIndices : List Int) (userQuery query : String) (topK : Nat)
    (quotes : List QuoteRec) (emoVecs : String → Option Vec)
    (hshort : (pyWords (pyLower userQuery)).length < 4) :
    node_retrieve_quote encodeUnit db usedIndices userQuery =
      (none, usedIndices) ∧
    (db.indexVecs = none →
      search_quote encodeUnit db query topK usedIndices = []) ∧
    search_quote encodeUnit ⟨quotes, some [], emoVecs⟩ query topK
      usedIndices = [] := by
  refine ⟨?_, ?_, ?_⟩
  · simp [node_retrieve_quote, hshort]
  · intro hnone
    simp [search_quote, hnone]
  · simp [search_quote, ipSearch]

/-- Witness for C5's amended theorem: applied at the one-word query "hi"
against a concrete one-quote database. -/
theorem quote_gate_in_pipeline_witness :
    node_retrieve_quote encFix (sampleQuoteDB 1) [] "hi" = (none, []) ∧
    ((sampleQuoteDB 1).indexVecs = none →
      search_quote encFix (sampleQuoteDB 1) "q" 3 [] = []) ∧
    search_quote encFix ⟨[], some [], fun _ => none⟩ "q" 3 [] = [] :=
  quote_gate_in_pipeline encFix (sampleQuoteDB 1) [] "hi" "q" 3 []
    (fun _ => none) (by decide)

/-- C4 counterexample: the composite attached to a returned candidate is the
weighted sum rounded to 3 decimal places, not the exact weighted sum: a
single candidate with cosine similarity 0.1234 and no cached emotion vector
has exact composite 0.08638 but search_quote returns 0.086. -/
theorem search_quote_composite_not_exact :
    (search_quote (fun _ => [1]) (sampleQuoteDB (1234 / 10000))
        "this query has enough words" 5 []).map (fun r => r.composite) =
      [86 / 1000] ∧
    (86 / 1000 : ℚ) ≠
      W_SEMANTIC * max 0 (1234 / 10000 : ℚ) +
        W_EMOTION * max 0 (emotion_sim (sampleQuoteDB (1234 / 10000)).emotionVecs
          [1] sampleQuote.emotion) := by
  constructor
  · norm_num [search_quote, sampleQuoteDB, ipSearch, dotProd, emotion_sim,
      round3, List.filterMap_cons, W_SEMANTIC, W_EMOTION]
    norm_num [Int.fract]
  · norm_num [W_SEMANTIC, W_EMOTION, emotion_sim, sampleQuoteDB]

/-- C4 (amended): every returned candidate's composite equals the weighted
sum W_SEMANTIC * semantic_sim + W_EMOTION * emotion_sim rounded to 3 decimal
places, with semantic_sim = max(0, cosine of its hit) and emotion_sim =
max(0, cached-emotion dot product, 0 when the label is uncached); the
returned list is sorted descending by that stored composite and holds at most
top_k entries. -/
theorem search_quote_composite_rounded (encodeUnit : String → Vec)
    (db : QuoteDB) (query : String) (topK : Nat) (usedIndices : List Int) :
    (∀ r ∈ search_quote encodeUnit db query topK usedIndices,
      ∃ vecs, db.indexVecs = some vecs ∧
      ∃ hit ∈ ipSearch vecs (encodeUnit query) (min (topK * 4) vecs.length),
        r.idx = hit.2 ∧
        r.composite = round3 (W_SEMANTIC * max 0 hit.1 +
          W_EMOTION * max 0 (emotion_sim db.emotionVecs (encodeUnit query)
            r.metadata.emotion)) ∧
        r.metadata = db.quotes.getD hit.2.toNat default) ∧
    ((search_quote encodeUnit db query topK usedIndices).map
      (fun r => r.composite)).Sorted (fun a b => b ≤ a) ∧
    (search_quote encodeUnit db query topK usedIndices).length ≤ topK := by
  refine ⟨?_, ?_, ?_⟩
  · intro r hr
    obtain ⟨vecs, hv, hit, hhit, h1, _, h3, h4⟩ := mem_search_quote hr
    exact ⟨vecs, hv, hit, hhit, h1, h4, h3⟩
  · unfold search_quote
    cases hvecs : db.indexVecs with
    | none => simp
    | some vecs =>
      simp only
      rw [List.Sorted, List.pairwise_map]
      exact ((pairwise_mergeSort_ge (fun r : QuoteResult => r.composite)
        _).sublist (List.take_sublist _ _))
  · unfold search_quote
    cases hvecs : db.indexVecs with
    | none => simp
    | some vecs =>
      simp only
      rw [List.length_take]
      exact min_le_left _ _

/-- Witness for C4's amended theorem: its sortedness and bound conjuncts
applied at a concrete one-quote database and query. -/
theorem search_quote_composite_rounded_witness :
    ((search_quote encFix (sampleQuoteDB 1) "q" 2 []).map
      (fun r => r.composite)).Sorted (fun a b => b ≤ a) ∧
    (search_quote encFix (sampleQuoteDB 1) "q" 2 []).length ≤ 2 :=
  ⟨(search_quote_composite_rounded encFix (sampleQuoteDB 1) "q" 2 []).2.1,
   (search_quote_composite_rounded encFix (sampleQuoteDB 1) "q" 2 []).2.2⟩

theorem add_memory_lookup (encode : String → Vec) (now : ℚ)
    (st : VectorDBState) (dn text : String) (imp : ℚ) (ty : String) :
    ∃ db2,
      alookup (add_memory encode now st dn text imp ty).databases dn
        = some db2 ∧
      alookup (add_memory encode now st dn text imp ty).disk dn
        = some db2 := by
  unfold add_memory save_domain
  split
  all_goals dsimp only
  all_goals split
  all_goals refine ⟨_, alookup_aupdate_self _ _ _, ?_⟩
  all_goals rw [alookup_aupdate_self, alookup_aupdate_self]
  all_goals rfl

/-- C10: add_memory with a domain name not present in the collection never
fails on the unknown name: the domain is initialized and persisted first and
the normal insert follows, so afterwards the domain exists (and is
persisted); when it also had no on-disk state the domain contains exactly the
newly added record with timestamp = now, count exactly 1. -/
theorem add_memory_unknown_domain (encode : String → Vec) (now : ℚ)
    (st : VectorDBState) (domainName text : String) (importance : ℚ)
    (memType : String)
    (h : alookup st.databases domainName = none) :
    (∃ db2,
      alookup (add_memory encode now st domainName text importance
        memType).databases domainName = some db2 ∧
      alookup (add_memory encode now st domainName text importance
        memType).disk domainName = some db2) ∧
    (alookup st.disk domainName = none →
      alookup (add_memory encode now st domainName text importance
          memType).databases domainName =
        some ⟨[encode text], [⟨text, some now, importance, memType⟩]⟩ ∧
      alookup (add_memory encode now st domainName text importance
          memType).disk domainName =
        some ⟨[encode text], [⟨text, some now, importance, memType⟩]⟩) := by
  constructor
  · exact add_memory_lookup encode now st domainName text importance memType
  · intro hdisk
    have h1 : alookup (init_empty_domain st domainName).databases domainName
        = some ⟨[], []⟩ := by
      unfold init_empty_domain
      rw [hdisk]
      exact alookup_aupdate_self _ _ _
    unfold add_memory save_domain
    simp only [h, Option.isSome_none, Bool.false_eq_true, if_false, h1,
      Option.getD_some, List.length_nil, gt_iff_lt, lt_self_iff_false,
      List.nil_append]
    constructor
    · exact alookup_aupdate_self _ _ _
    · rw [alookup_aupdate_self, alookup_aupdate_self]
      rfl

/-- Witness for C10: applied to the empty manager state and a fresh domain. -/
theorem add_memory_unknown_domain_witness :
    alookup (add_memory encFix 7 ⟨[], []⟩ "newdom" "hello" (1 / 2)
        "general").databases "newdom" =
      some ⟨[encFix "hello"], [⟨"hello", some 7, 1 / 2, "general"⟩]⟩ ∧
    alookup (add_memory encFix 7 ⟨[], []⟩ "newdom" "hello" (1 / 2)
        "general").disk "newdom" =
      some ⟨[encFix "hello"], [⟨"hello", some 7, 1 / 2, "general"⟩]⟩ :=
  (add_memory_unknown_domain encFix 7 ⟨[], []⟩ "newdom" "hello" (1 / 2)
    "general" rfl).2 rfl

/-- C2: dedup semantics of add_memory.  When the new text's nearest existing
neighbour lies at distance below the fixed identity threshold 1.0, the record
count does not increase: the matched record's text, timestamp, importance and
type are overwritten in place and the index is rebuilt from the full updated
metadata list; when no neighbour is below the threshold the new record is
appended with timestamp = now, increasing the count by exactly one; in both
paths the domain is persisted after the mutation. -/
theorem add_memory_dedup_or_append (encode : String → Vec) (now : ℚ)
    (st : VectorDBState) (domainName text : String) (importance : ℚ)
    (memType : String) (db : DomainDB)
    (hdb : alookup st.databases domainName = some db) :
    (∀ d i rest, l2Search db.index (encode text) 1 = (d, i) :: rest →
      i ≠ -1 → d < 1 →
      alookup (add_memory encode now st domainName text importance
          memType).databases domainName =
        some ⟨(db.data.set i.toNat
                 ⟨text, some now, importance, memType⟩).map
                (fun m => encode m.text),
              db.data.set i.toNat ⟨text, some now, importance, memType⟩⟩ ∧
      (db.data.set i.toNat ⟨text, some now, importance, memType⟩).length =
        db.data.length ∧
      alookup (add_memory encode now st domainName text importance
          memType).disk domainName =
        alookup (add_memory encode now st domainName text importance
          memType).databases domainName) ∧
    ((∀ p ∈ l2Search db.index (encode text) 1, ¬(p.2 ≠ -1 ∧ p.1 < 1)) →
      alookup (add_memory encode now st domainName text importance
          memType).databases domainName =
        some ⟨db.index ++ [encode text],
              db.data ++ [⟨text, some now, importance, memType⟩]⟩ ∧
      (db.data ++ [(⟨text, some now, importance, memType⟩ : MemRecord)]).length
        = db.data.length + 1 ∧
      alookup (add_memory encode now st domainName text importance
          memType).disk domainName =
        alookup (add_memory encode now st domainName text importance
          memType).databases domainName) := by
  have hlen0 : ∀ q k, l2Search ([] : List Vec) q k = [] := by
    intro q k
    simp [l2Search]
  constructor
  · intro d i rest hsearch hi hd
    have hne : 0 < db.index.length := by
      rcases Nat.eq_zero_or_pos db.index.length with h0 | h0
      · rw [List.length_eq_zero] at h0
        rw [h0, hlen0] at hsearch
        cases hsearch
      · exact h0
    unfold add_memory save_domain
    simp only [hdb, Option.isSome_some, if_true, Option.getD_some, gt_iff_lt,
      hne, if_pos, hsearch]
    simp only [ne_eq, hi, not_false_eq_true, hd, and_self, if_true]
    refine ⟨alookup_aupdate_self _ _ _, List.length_set _ _ _, ?_⟩
    rw [alookup_aupdate_self, alookup_aupdate_self]
    rfl
  · intro hnodup
    have hdedup :
        (if db.index.length > 0 then
          match l2Search db.index (encode text) 1 with
          | (d, i) :: _ => if i ≠ -1 ∧ d < 1 then some (d, i) else none
          | [] => none
        else none) = (none : Option (ℚ × Int)) := by
      by_cases hne : db.index.length > 0
      · rw [if_pos hne]
        cases hsearch : l2Search db.index (encode text) 1 with
        | nil => rfl
        | cons hd2 tl =>
          obtain ⟨d, i⟩ := hd2
          have := hnodup (d, i) (by rw [hsearch]; exact List.mem_cons_self _ _)
          simp only [ne_eq] at this
          simp [this]
      · rw [if_neg hne]
    unfold add_memory save_domain
    simp only [hdb, Option.isSome_some, if_true, Option.getD_some]
    rw [hdedup]
    refine ⟨alookup_aupdate_self _ _ _, by simp, ?_⟩
    rw [alookup_aupdate_self, alookup_aupdate_self]
    rfl

/-- Witness for C2: both branches applied to a concrete one-record domain:
inserting x (distance 1/4 to the stored record) overwrites in place, while
inserting y (distance 4) appends. -/
theorem add_memory_dedup_or_append_witness :
    (alookup (add_memory encFix 9 stC2 "d" "x" (3 / 4) "t").databases "d" =
      some ⟨(([⟨"a", some 0, 1 / 2, "general"⟩] : List MemRecord).set 0
               ⟨"x", some 9, 3 / 4, "t"⟩).map (fun m => encFix m.text),
            ([⟨"a", some 0, 1 / 2, "general"⟩] : List MemRecord).set 0
              ⟨"x", some 9, 3 / 4, "t"⟩⟩) ∧
    (alookup (add_memory encFix 9 stC2 "d" "y" (3 / 4) "t").databases "d" =
      some ⟨[[0]] ++ [encFix "y"],
            ([⟨"a", some 0, 1 / 2, "general"⟩] : List MemRecord) ++
              [⟨"y", some 9, 3 / 4, "t"⟩]⟩) := by
  constructor
  · exact ((add_memory_dedup_or_append encFix 9 stC2 "d" "x" (3 / 4) "t"
      dbC2 rfl).1 (1 / 4) 0 []
      (by
        have hx : encFix "x" = [1 / 2] := rfl
        rw [hx]
        norm_num [l2Search, sqDist, dbC2])
      (by decide) (by norm_num)).1
  · refine ((add_memory_dedup_or_append encFix 9 stC2 "d" "y" (3 / 4) "t"
      dbC2 rfl).2 ?_).1
    have hs2 : l2Search dbC2.index (encFix "y") 1 = [(4, 0)] := by
      have hy : encFix "y" = [2] := rfl
      rw [hy]
      norm_num [l2Search, sqDist, dbC2]
    intro p hp
    rw [hs2] at hp
    simp only [List.mem_singleton] at hp
    rw [hp]
    norm_num

theorem stateWF_init_empty_domain (encode : String → Vec)
    (st : VectorDBState) (dn : String) (h : stateWF encode st) :
    stateWF encode (init_empty_domain st dn) := by
  obtain ⟨hmem, hdisk⟩ := h
  unfold init_empty_domain
  cases hd : alookup st.disk dn with
  | some db =>
    refine ⟨?_, hdisk⟩
    intro d db2 hl
    rcases alookup_aupdate_cases hl with ⟨he, hv⟩ | hl2
    · rw [hv]
      exact hdisk dn db hd
    · exact hmem d db2 hl2
  | none =>
    constructor
    · intro d db2 hl
      rcases alookup_aupdate_cases hl with ⟨he, rfl⟩ | hl2
      · exact rfl
      · exact hmem d db2 hl2
    · intro d db2 hl
      rcases alookup_aupdate_cases hl with ⟨he, rfl⟩ | hl2
      · exact rfl
      · exact hdisk d db2 hl2

theorem stateWF_save_step (encode : String → Vec) (st1 : VectorDBState)
    (dn : String) (v : DomainDB) (h1 : stateWF encode st1)
    (hv : domainWF encode v) :
    stateWF encode
      ⟨aupdate st1.databases dn v,
       aupdate st1.disk dn
         ((alookup (aupdate st1.databases dn v) dn).getD ⟨[], []⟩)⟩ := by
  constructor
  · intro d db2 hl
    rcases alookup_aupdate_cases hl with ⟨he, rfl⟩ | hl2
    · exact hv
    · exact h1.1 d db2 hl2
  · intro d db2 hl
    rcases alookup_aupdate_cases hl with ⟨he, rfl⟩ | hl2
    · rw [alookup_aupdate_self]
      exact hv
    · exact h1.2 d db2 hl2

theorem domainWF_append (encode : String → Vec) (db : DomainDB)
    (hdb : domainWF encode db) (text : String) (now imp : ℚ) (ty : String) :
    domainWF encode ⟨db.index ++ [encode text],
      db.data ++ [⟨text, some now, imp, ty⟩]⟩ := by
  have hd2 : db.index = db.data.map (fun m => encode m.text) := hdb
  show db.index ++ [encode text] =
    List.map (fun m => encode m.text) (db.data ++ [⟨text, some now, imp, ty⟩])
  rw [List.map_append, ← hd2]
  rfl

theorem stateWF_add_memory (encode : String → Vec) (now : ℚ)
    (st : VectorDBState) (dn text : String) (imp : ℚ) (ty : String)
    (h : stateWF encode st) :
    stateWF encode (add_memory encode now st dn text imp ty) := by
  have hgetD : ∀ st1 : VectorDBState, stateWF encode st1 →
      domainWF encode ((alookup st1.databases dn).getD ⟨[], []⟩) := by
    intro st1 h1
    cases hl : alookup st1.databases dn with
    | none => exact rfl
    | some db0 => exact h1.1 dn db0 hl
  unfold add_memory save_domain
  split
  next hsome =>
    dsimp only
    split
    · exact stateWF_save_step encode st dn _ h rfl
    · exact stateWF_save_step encode st dn _ h
        (domainWF_append encode _ (hgetD st h) text now imp ty)
  next hnone =>
    dsimp only
    have h1 : stateWF encode (init_empty_domain st dn) :=
      stateWF_init_empty_domain encode st dn h
    split
    · exact stateWF_save_step encode (init_empty_domain st dn) dn _ h1 rfl
    · exact stateWF_save_step encode (init_empty_domain st dn) dn _ h1
        (domainWF_append encode _ (hgetD (init_empty_domain st dn) h1)
          text now imp ty)

/-- C3: after any finite sequence of add_memory calls (each operation being
(now, domain, text, importance, type)) applied to a state satisfying the
structural invariant, every domain still satisfies it: the index holds
exactly as many vectors as there are metadata records and the j-th vector is
the embedding of the j-th record's text, covering both the
overwrite-and-rebuild path and the append path. -/
theorem add_memory_sequence_invariant (encode : String → Vec)
    (ops : List (ℚ × String × String × ℚ × String)) (st : VectorDBState)
    (h : stateWF encode st) :
    stateWF encode (ops.foldl (fun s op =>
      add_memory encode op.1 s op.2.1 op.2.2.1 op.2.2.2.1 op.2.2.2.2) st) ∧
    ∀ dn db, alookup (ops.foldl (fun s op =>
        add_memory encode op.1 s op.2.1 op.2.2.1 op.2.2.2.1 op.2.2.2.2)
        st).databases dn = some db →
      db.index.length = db.data.length ∧
      ∀ j, j < db.data.length →
        db.index.getD j [] = encode ((db.data.getD j default).text) := by
  have hfold : ∀ st2 : VectorDBState, stateWF encode st2 →
      stateWF encode (ops.foldl (fun s op =>
        add_memory encode op.1 s op.2.1 op.2.2.1 op.2.2.2.1 op.2.2.2.2)
        st2) := by
    induction ops with
    | nil => intro st2 h2; exact h2
    | cons op rest ih =>
      intro st2 h2
      exact ih _ (stateWF_add_memory encode op.1 st2 op.2.1 op.2.2.1
        op.2.2.2.1 op.2.2.2.2 h2)
  refine ⟨hfold st h, ?_⟩
  intro dn db hl
  have hwf : domainWF encode db := (hfold st h).1 dn db hl
  have hd2 : db.index = db.data.map (fun m => encode m.text) := hwf
  constructor
  · rw [hd2, List.length_map]
  · intro j hj
    rw [hd2, List.getD_eq_getElem?_getD, List.getD_eq_getElem?_getD,
      List.getElem?_map, List.getElem?_eq_getElem hj]
    rfl

/-- Witness for C3: two insertions into the same fresh domain starting from
the empty state. -/
theorem add_memory_sequence_invariant_witness :
    stateWF encFix
      (([(1, "d", "a", 1 / 2, "t"), (2, "d", "b", 1 / 2, "t")] :
        List (ℚ × String × String × ℚ × String)).foldl (fun s op =>
          add_memory encFix op.1 s op.2.1 op.2.2.1 op.2.2.2.1 op.2.2.2.2)
        ⟨[], []⟩) :=
  (add_memory_sequence_invariant encFix
    [(1, "d", "a", 1 / 2, "t"), (2, "d", "b", 1 / 2, "t")] ⟨[], []⟩
    (by constructor <;> intro d db hl <;> simp [alookup] at hl)).1

theorem filterMap_scoreHit_eq_spec (now : ℚ) (db : DomainDB)
    (hits : List (ℚ × Int)) (hno : ∀ p ∈ hits, p.2 ≠ -1) :
    hits.filterMap (scoreHit now db) =
      ((hits.map (fun h =>
        (baseSimilarity h.1, db.data.getD h.2.toNat default))).filter
        (fun p => decide (40 / 100 ≤ p.1))).map
        (fun p => (specFinalScore now p.1 p.2, p.2)) := by
  induction hits with
  | nil => rfl
  | cons hd tl ih =>
    have hhd : hd.2 ≠ -1 := hno hd (List.mem_cons_self _ _)
    have htl : ∀ p ∈ tl, p.2 ≠ -1 :=
      fun p hp => hno p (List.mem_cons_of_mem _ hp)
    rw [List.filterMap_cons, List.map_cons, List.filter_cons]
    by_cases hs : baseSimilarity hd.1 < 40 / 100
    · have hdec : decide ((40 : ℚ) / 100 ≤ baseSimilarity hd.1) = false := by
        simp [not_le.mpr hs]
      rw [hdec]
      have hsh : scoreHit now db hd = none := by
        unfold scoreHit
        rw [if_neg hhd, if_pos hs]
      rw [hsh]
      simp only [Bool.false_eq_true, if_false]
      exact ih htl
    · have hdec : decide ((40 : ℚ) / 100 ≤ baseSimilarity hd.1) = true := by
        simp [not_lt.mp hs]
      rw [hdec]
      simp only [if_true]
      rw [List.map_cons]
      cases htm : (db.data.getD hd.2.toNat default).timestamp with
      | none =>
        have hsh : scoreHit now db hd =
            some (baseSimilarity hd.1, db.data.getD hd.2.toNat default) := by
          unfold scoreHit
          rw [if_neg hhd, if_neg hs, htm]
        rw [hsh, ih htl]
        unfold specFinalScore
        rw [htm]
      | some ts2 =>
        have hsh : scoreHit now db hd =
            some (decayScore (baseSimilarity hd.1)
                (db.data.getD hd.2.toNat default).importance
                ((now - ts2) / 86400),
              db.data.getD hd.2.toNat default) := by
          unfold scoreHit
          rw [if_neg hhd, if_neg hs, htm]
        rw [hsh, ih htl]
        unfold specFinalScore
        rw [htm]
        rfl

/-- C1: for a present, non-empty domain, search_with_decay computes exactly
the spec-worded pipeline (base similarity 1/(1+d) per over-fetched candidate,
0.40 relevance floor, static records scored s, dynamic records scored
s + importance*0.5 + s*(1/(1+age_in_days)) with age_in_days =
(now-timestamp)/86400, stable descending sort, record contents of the top_k);
an absent or empty domain yields the empty list, at most top_k records are
returned, the sorted candidate scores are descending, and every returned
record comes from a candidate whose base similarity is at least 0.40. -/
theorem search_with_decay_meets_spec (encode : String → Vec) (now : ℚ)
    (st : VectorDBState) (domainName query : String) (topK : Nat) :
    search_with_decay encode now st domainName query topK =
      spec_search_with_decay encode now st domainName query topK ∧
    (alookup st.databases domainName = none →
      search_with_decay encode now st domainName query topK = []) ∧
    (∀ db, alookup st.databases domainName = some db →
      db.index.length = 0 →
      search_with_decay encode now st domainName query topK = []) ∧
    (search_with_decay encode now st domainName query topK).length ≤ topK ∧
    (∀ db : DomainDB,
      (((specScoredCandidates encode now db query).mergeSort
        (fun a b => decide (b.1 ≤ a.1))).map (fun p => p.1)).Sorted
        (fun a b => b ≤ a)) ∧
    (∀ m ∈ search_with_decay encode now st domainName query topK,
      ∃ db, alookup st.databases domainName = some db ∧
      ∃ hit ∈ l2Search db.index (encode query) (min 10 db.index.length),
        40 / 100 ≤ baseSimilarity hit.1 ∧
        m = db.data.getD hit.2.toNat default) := by
  have hno : ∀ db : DomainDB, ∀ p ∈ l2Search db.index (encode query)
      (min 10 db.index.length), p.2 ≠ -1 := by
    intro db p hp
    obtain ⟨i, hi, _⟩ := mem_l2Search hp
    rw [hi]
    intro hcon
    omega
  refine ⟨?_, ?_, ?_, ?_, ?_, ?_⟩
  · unfold search_with_decay spec_search_with_decay specScoredCandidates
    cases hl : alookup st.databases domainName with
    | none => rfl
    | some db =>
      dsimp only
      by_cases h0 : db.index.length = 0
      · rw [if_pos h0, if_pos h0]
      · rw [if_neg h0, if_neg h0]
        rw [filterMap_scoreHit_eq_spec now db _ (hno db)]
  · intro h
    unfold search_with_decay
    rw [h]
  · intro db hdb h0
    unfold search_with_decay
    rw [hdb]
    exact if_pos h0
  · unfold search_with_decay
    cases hl : alookup st.databases domainName with
    | none => simp
    | some db =>
      dsimp only
      by_cases h0 : db.index.length = 0
      · rw [if_pos h0]
        simp
      · rw [if_neg h0]
        rw [List.length_map, List.length_take]
        exact min_le_left _ _
  · intro db
    rw [List.Sorted, List.pairwise_map]
    exact pairwise_mergeSort_ge (fun p : ℚ × MemRecord => p.1) _
  · intro m hm
    unfold search_with_decay at hm
    cases hl : alookup st.databases domainName with
    | none =>
      rw [hl] at hm
      simp at hm
    | some db =>
      rw [hl] at hm
      dsimp only at hm
      by_cases h0 : db.index.length = 0
      · rw [if_pos h0] at hm
        simp at hm
      · rw [if_neg h0] at hm
        obtain ⟨p, hp, hpm⟩ := List.mem_map.mp hm
        have hp2 := List.mem_of_mem_take hp
        have hp3 := (List.mergeSort_perm _ _).mem_iff.mp hp2
        obtain ⟨hit, hhit, heq⟩ := List.mem_filterMap.mp hp3
        refine ⟨db, rfl, hit, hhit, ?_⟩
        unfold scoreHit at heq
        by_cases hc1 : hit.2 = -1
        · rw [if_pos hc1] at heq
          cases heq
        · rw [if_neg hc1] at heq
          by_cases hc2 : baseSimilarity hit.1 < 40 / 100
          · rw [if_pos hc2] at heq
            cases heq
          · rw [if_neg hc2] at heq
            refine ⟨not_lt.mp hc2, ?_⟩
            cases htm : (db.data.getD hit.2.toNat default).timestamp with
            | none =>
              rw [htm] at heq
              injection heq with heq2
              rw [← hpm, ← heq2]
            | some ts =>
              rw [htm] at heq
              injection heq with heq2
              rw [← hpm, ← heq2]

/-- Witness for C1: the absent-domain conjunct applied to an empty manager,
and the spec-equality conjunct applied to a concrete one-record domain. -/
theorem search_with_decay_meets_spec_witness :
    search_with_decay encFix 0 ⟨[], []⟩ "missing" "q" 3 = [] ∧
    search_with_decay encFix 9 stC2 "d" "q" 3 =
      spec_search_with_decay encFix 9 stC2 "d" "q" 3 :=
  ⟨(search_with_decay_meets_spec encFix 0 ⟨[], []⟩ "missing" "q" 3).2.1 rfl,
   (search_with_decay_meets_spec encFix 9 stC2 "d" "q" 3).1⟩

theorem accepted_run_no_repeat_aux (encodeUnit : String → Vec)
    (db : QuoteDB) :
    ∀ qs pre suf (p : Int),
      AcceptedRun encodeUnit db (pre ++ p :: suf) qs →
      (pre ++ p :: suf).length ≤ 5 →
      suf.length + qs.length ≤ 5 → p ∉ qs := by
  have hL : ∀ (l1 l2 : List Int) (x : Int),
      (l1 ++ x :: l2).length = l1.length + l2.length + 1 := by
    intro l1 l2 x
    rw [List.length_append, List.length_cons]
    omega
  intro qs
  induction qs with
  | nil =>
    intro pre suf p _ _ _
    simp
  | cons q qs ih =>
    intro pre suf p hrun hlen hbound
    cases hrun with
    | cons _ _ _ query best rest hsearch hgate hq hrest =>
      have hqmem : q ∉ pre ++ p :: suf := by
        have hb : best ∈ search_quote encodeUnit db query 3
            (pre ++ p :: suf) := by
          rw [hsearch]
          exact List.mem_cons_self _ _
        obtain ⟨_, _, _, _, _, hnot, _, _⟩ := mem_search_quote hb
        rw [hq]
        exact hnot
      have hpmem : p ∈ pre ++ p :: suf :=
        List.mem_append_right _ (List.mem_cons_self _ _)
      have hqp : q ≠ p := fun hqp => hqmem (hqp ▸ hpmem)
      intro hmem
      rcases List.mem_cons.mp hmem with hqp2 | hmem2
      · exact hqp hqp2.symm
      · rw [hL] at hlen
        rw [List.length_cons] at hbound
        have happq : ((pre ++ p :: suf) ++ [q]).length =
            pre.length + suf.length + 2 := by
          rw [List.length_append, hL, List.length_singleton]
        by_cases hfull : 5 < ((pre ++ p :: suf) ++ [q]).length
        · rw [happq] at hfull
          cases pre with
          | nil =>
            have hqs0 : qs.length = 0 := by
              simp only [List.length_nil] at hfull hlen
              omega
            rw [List.length_eq_zero] at hqs0
            rw [hqs0] at hmem2
            cases hmem2
          | cons a pre2 =>
            have hring : acceptQuote ((a :: pre2) ++ p :: suf) q =
                pre2 ++ p :: (suf ++ [q]) := by
              unfold acceptQuote
              rw [if_pos]
              · simp
              · rw [happq]
                exact hfull
            rw [hring] at hrest
            refine ih pre2 (suf ++ [q]) p hrest ?_ ?_ hmem2
            · rw [hL, List.length_append, List.length_singleton]
              rw [List.length_cons] at hlen
              omega
            · rw [List.length_append, List.length_singleton]
              omega
        · have hring : acceptQuote (pre ++ p :: suf) q =
              pre ++ p :: (suf ++ [q]) := by
            unfold acceptQuote
            rw [if_neg hfull]
            simp
          rw [hring] at hrest
          refine ih pre (suf ++ [q]) p hrest ?_ ?_ hmem2
          · rw [happq] at hfull
            rw [hL, List.length_append, List.length_singleton]
            omega
          · rw [List.length_append, List.length_singleton]
            omega

/-- C6: the anti-repetition guarantee of the orchestrator: the recently-used
ring never holds more than 5 positions (FIFO update acceptQuote), every
position currently in the ring is excluded from search_quote's candidates,
and a position p that has just been accepted (the most recent entry of a ring
of at most 5 positions) is never selected again during the next 5 accepted
quote selections. -/
theorem quote_anti_repetition (encodeUnit : String → Vec) (db : QuoteDB) :
    (∀ (used : List Int) (q : Int), used.length ≤ 5 →
      (acceptQuote used q).length ≤ 5) ∧
    (∀ (query : String) (topK : Nat) (used : List Int) (r : QuoteResult),
      r ∈ search_quote encodeUnit db query topK used → r.idx ∉ used) ∧
    (∀ (qs used : List Int) (p : Int), used.length ≤ 5 →
      used.getLast? = some p → AcceptedRun encodeUnit db used qs →
      qs.length ≤ 5 → p ∉ qs) := by
  refine ⟨?_, ?_, ?_⟩
  · intro used q hlen
    unfold acceptQuote
    dsimp only
    split
    next hfull =>
      rw [List.length_drop, List.length_append, List.length_singleton]
      omega
    next hfull =>
      exact Nat.le_of_not_lt hfull
  · intro query topK used r hr
    obtain ⟨_, _, _, _, _, hnot, _, _⟩ := mem_search_quote hr
    exact hnot
  · intro qs used p hlen hlast hrun hqs
    obtain ⟨ys, rfl⟩ := List.getLast?_eq_some_iff.mp hlast
    exact accepted_run_no_repeat_aux encodeUnit db qs ys [] p hrun hlen
      (by simpa using hqs)

/-- Witness for C6: the ring bound applied at a full ring, and the
no-reselection part applied to a ring that has just accepted position 7
followed by one accepted selection of position 0. -/
theorem quote_anti_repetition_witness :
    (acceptQuote [1, 2, 3, 4, 5] 6).length ≤ 5 ∧
    (7 : Int) ∉ ([0] : List Int) := by
  constructor
  · exact (quote_anti_repetition (fun _ => [1]) (sampleQuoteDB 1)).1
      [1, 2, 3, 4, 5] 6 (by norm_num)
  · have hs : search_quote (fun _ => [1]) (sampleQuoteDB 1) "w" 3 [7] =
        [⟨0, 1, 0, 1, 7 / 10, sampleQuote⟩] := by
      norm_num [search_quote, sampleQuoteDB, ipSearch, dotProd, emotion_sim,
        round3, List.filterMap_cons, W_SEMANTIC, W_EMOTION]
    exact (quote_anti_repetition (fun _ => [1]) (sampleQuoteDB 1)).2.2
      [0] [7] 7 (by norm_num) rfl
      (AcceptedRun.cons [7] 0 [] "w" ⟨0, 1, 0, 1, 7 / 10, sampleQuote⟩ []
        hs (by norm_num) rfl (AcceptedRun.nil _))
      (by norm_num)
